import Mathlib

/-!
# Verification of `src/utils/stainNorm_Macenko.py`

Shallow embedding of the Macenko stain-normalization module.  The
numpy program works on `float32` arrays; we model the float values by
real numbers.  Machine images are `uint8` arrays, modelled as
`ℕ`-valued functions (with bounds stated where they matter).

The one library primitive with no closed form, `np.linalg.eigh`, is
abstracted as an explicit function parameter `eigh` supplying the
eigenvector matrix (eigenvalues ascending, as numpy documents); every
use the source makes of its result (column selection `[:, [2, 1]]`,
sign fixing, projections) is embedded concretely downstream.

`np.linalg.lstsq(A, Y)[0]` on a square system is modelled by
`A⁻¹ * Y` (Mathlib's adjugate-based `Matrix.inv`, which agrees with
the least-squares solution whenever `A` is invertible; theorems that
depend on the value of the solution carry an `IsUnit A.det`
hypothesis).

Where a claim is about IEEE exceptional values (numpy division by
zero producing non-finite results), the affected primitive is also
given in a flagged form returning `Option ℝ`, with `none` standing
for the non-finite float (NaN/inf); bridging lemmas relate the two
forms on the non-degenerate domain.
-/

/-- A `uint8` image buffer of shape (h, w, c), as the caller owns it. -/
abbrev Img (h w c : ℕ) := Fin h → Fin w → Fin c → ℕ

/-- One flattened float sample row (an RGB triple). -/
abbrev Pix := Fin 3 → ℝ

abbrev Mat3 := Matrix (Fin 3) (Fin 3) ℝ

/-- Euclidean norm of column `j`: `np.linalg.norm(A, axis=0)`. -/
noncomputable def colNorm {m n : ℕ} (A : Matrix (Fin m) (Fin n) ℝ) (j : Fin n) : ℝ :=
  Real.sqrt (∑ i, (A i j) ^ 2)

/-- `normalize_columns(A)`: `A / np.linalg.norm(A, axis=0)`
(source lines 4–10).  Real-valued form; numpy's behaviour on a zero
column (non-finite values, no exception) is captured by
`normalize_columnsF` below. -/
noncomputable def normalize_columns {m n : ℕ} (A : Matrix (Fin m) (Fin n) ℝ) :
    Matrix (Fin m) (Fin n) ℝ :=
  Matrix.of fun i j => A i j / colNorm A j

/-- Float division with the IEEE exceptional case flagged: `none`
models the non-finite value (NaN or ±inf) numpy produces when the
denominator is zero; no exception is ever raised. -/
noncomputable def pdiv (x y : ℝ) : Option ℝ :=
  if y = 0 then none else some (x / y)

/-- `normalize_columns` with the IEEE division-by-zero case flagged:
the entries of a zero-norm column come out non-finite (`none`). -/
noncomputable def normalize_columnsF {m n : ℕ} (A : Matrix (Fin m) (Fin n) ℝ) :
    Matrix (Fin m) (Fin n) (Option ℝ) :=
  Matrix.of fun i j => pdiv (A i j) (colNorm A j)

/-- Mean of a list of floats, with the empty-list division by zero
flagged as non-finite. -/
noncomputable def meanNaN (l : List ℝ) : Option ℝ :=
  pdiv l.sum (l.length : ℝ)

/-- `np.cov(rows, rowvar=False)` (sample covariance, `ddof = 1`) with
IEEE exceptional values flagged: with fewer than 2 rows the divisions
by `len` respectively `len - 1` produce non-finite entries (`none`),
exactly as numpy emits a runtime warning and fills the matrix with
NaN instead of raising. -/
noncomputable def covNaN (rows : List Pix) : Fin 3 → Fin 3 → Option ℝ := fun a b =>
  (meanNaN (rows.map fun r => r a)).bind fun ma =>
    (meanNaN (rows.map fun r => r b)).bind fun mb =>
      pdiv ((rows.map fun r => (r a - ma) * (r b - mb)).sum) ((rows.length : ℝ) - 1)

noncomputable def listMean (l : List ℝ) : ℝ := l.sum / (l.length : ℝ)

/-- `np.cov(rows, rowvar=False)`: real-valued form used inside the
pipeline (agrees with `covNaN` whenever at least 2 rows are present,
see `covNaN_eq_some_covM`). -/
noncomputable def covM (rows : List Pix) : Mat3 :=
  Matrix.of fun a b =>
    ((rows.map fun r =>
        (r a - listMean (rows.map fun p => p a)) *
        (r b - listMean (rows.map fun p => p b))).sum) / ((rows.length : ℝ) - 1)

/-- The in-place substitution `x[x == 0] = 1` acting on one sample. -/
def zeroReplace (x : ℕ) : ℕ := if x = 0 then 1 else x

/-- The contents of a caller-supplied buffer after the source has run
`mask = (img == 0); img[mask] = 1` on it.  The source performs this
assignment on the caller's array itself; only the subsequent
`astype(np.float32)` allocates a fresh array, so this is exactly the
caller-visible post-call state of each input buffer. -/
def bufferAfter {h w c : ℕ} (img : Img h w c) : Img h w c :=
  fun i j k => zeroReplace (img i j k)

/-- Caller-visible state of the `(patch, targetImg)` argument buffers
after a call to `normalize_Macenko` (source lines 37–43). -/
def buffersAfterCall {h w h2 w2 c : ℕ} (patch : Img h w c) (targetImg : Img h2 w2 c) :
    Img h w c × Img h2 w2 c :=
  (bufferAfter patch, bufferAfter targetImg)

/-- `np.reshape(img, (h * w, c))`, row-major: flattened sample `n`
is pixel `(n / w, n % w)`. -/
def flatten {h w c : ℕ} (img : Img h w c) : List (Fin c → ℕ) :=
  (List.finRange (h * w)).map fun (n : Fin (h * w)) => fun k =>
    img ⟨(n : ℕ) / w, by
        have hn := n.isLt
        have hw : 0 < w := by
          rcases Nat.eq_zero_or_pos w with h0 | h0
          · subst h0; simp at hn
          · exact h0
        exact (Nat.div_lt_iff_lt_mul hw).2 hn⟩
      ⟨(n : ℕ) % w, by
        have hn := n.isLt
        have hw : 0 < w := by
          rcases Nat.eq_zero_or_pos w with h0 | h0
          · subst h0; simp at hn
          · exact h0
        exact Nat.mod_lt _ hw⟩ k

/-- Zero replacement followed by `astype(np.float32)` and row-major
flattening: the float sample rows the rest of the pipeline works on.
(The source reshapes after the cast; both act pointwise, so the
composite is the same.) -/
def floatRows {h w c : ℕ} (img : Img h w c) : List (Fin c → ℝ) :=
  (flatten (bufferAfter img)).map fun p k => ((p k : ℕ) : ℝ)

/-- `OD = -np.log(rows / Io)` applied to each flattened sample. -/
noncomputable def odRows {c : ℕ} (Io : ℝ) (rows : List (Fin c → ℝ)) : List (Fin c → ℝ) :=
  rows.map fun p k => -Real.log (p k / Io)

/-- Foreground Sample Set: `OD[(OD > beta).any(axis=1), :]`. -/
noncomputable def fgRows {c : ℕ} (beta : ℝ) (od : List (Fin c → ℝ)) : List (Fin c → ℝ) :=
  od.filter fun r => decide (∃ k, beta < r k)

/-- `np.arctan2 y x`, modelled as the argument of the complex number
`x + y·i` (the standard mathematical characterization of `atan2`). -/
noncomputable def atan2 (y x : ℝ) : ℝ := Complex.arg ⟨x, y⟩

/-- `np.percentile(l, q)` with the default linear interpolation:
sort, take the virtual index `q/100 * (len - 1) = k + f` and
interpolate between the `k`-th and `(k+1)`-th order statistics. -/
noncomputable def percentile (l : List ℝ) (q : ℝ) : ℝ :=
  let s := List.insertionSort (· ≤ ·) l
  let idx : ℝ := q / 100 * ((l.length : ℝ) - 1)
  let k : ℤ := ⌊idx⌋
  s.getD k.toNat 0 + (idx - (k : ℝ)) * (s.getD (k.toNat + 1) 0 - s.getD k.toNat 0)

/-- `np.cross` on 3-vectors. -/
def cross3 (a b : Fin 3 → ℝ) : Fin 3 → ℝ :=
  ![a 1 * b 2 - a 2 * b 1, a 2 * b 0 - a 0 * b 2, a 0 * b 1 - a 1 * b 0]

/-- `np.array([u, v, z]).T`: the matrix whose columns are `u`, `v`, `z`. -/
def colMat (u v z : Fin 3 → ℝ) : Mat3 :=
  Matrix.of fun i j => if j = 0 then u i else if j = 1 then v i else z i

/-- `V = V[:, [2, 1]]` followed by the two sign flips
`if V[0, j] < 0: V[:, j] *= -1`: keep the eigenvector columns of the
two largest eigenvalues (numpy returns eigenvalues ascending) and
give each a non-negative first entry. -/
noncomputable def signFix (V0 : Mat3) : Fin 3 → Fin 2 → ℝ := fun i j =>
  if V0 0 (if j = 0 then 2 else 1) < 0 then -V0 i (if j = 0 then 2 else 1)
  else V0 i (if j = 0 then 2 else 1)

/-- `That = np.dot(ODhat, V); phi = np.arctan2(That[:, 1], That[:, 0])`:
the projected angle of each foreground sample. -/
noncomputable def phiList (V1 : Fin 3 → Fin 2 → ℝ) (ODhat : List Pix) : List ℝ :=
  (ODhat.map fun r (j : Fin 2) => ∑ i, r i * V1 i j).map fun t => atan2 (t 1) (t 0)

/-- The tail of the estimation block: map the two extreme angles back
through `V` (`v1 = V·(cos minPhi, sin minPhi)`, likewise `v2`), take
`v3 = np.cross(v1, v2)`, order the columns by their first components
(`if v1[0] > v2[0]`) and normalize columns. -/
noncomputable def basisFromAngles (V1 : Fin 3 → Fin 2 → ℝ) (minPhi maxPhi : ℝ) : Mat3 :=
  let v1 : Fin 3 → ℝ := fun i => V1 i 0 * Real.cos minPhi + V1 i 1 * Real.sin minPhi
  let v2 : Fin 3 → ℝ := fun i => V1 i 0 * Real.cos maxPhi + V1 i 1 * Real.sin maxPhi
  let v3 := cross3 v1 v2
  normalize_columns (if v2 0 < v1 0 then colMat v1 v2 v3 else colMat v2 v1 v3)

/-- The stain-basis estimation block (source lines 45–66, repeated
verbatim for the target on lines 68–89), as a function of the OD
sample rows of one image: select the Foreground Sample Set
(`OD > beta` in any channel), eigendecompose its covariance, keep and
sign-fix the two leading eigenvector columns, project the foreground
samples, take the `alpha` / `100 - alpha` percentiles of their
angles, and build the unit-column basis from the two extreme
angles. -/
noncomputable def stainMatrix (eigh : Mat3 → Mat3) (beta alpha : ℝ) (od : List Pix) : Mat3 :=
  let ODhat := fgRows beta od
  let V1 := signFix (eigh (covM ODhat))
  let phi := phiList V1 ODhat
  basisFromAngles V1 (percentile phi alpha) (percentile phi (100 - alpha))

/-- `np.linalg.lstsq(A, Y)[0]` taken column-by-column of `Y = OD.T`
(so on the list of OD sample rows): for invertible `A` the
least-squares solution of the square system is `A⁻¹ y`. -/
noncomputable def lstsq (A : Mat3) (rows : List Pix) : List Pix :=
  rows.map fun r => A⁻¹.mulVec r

/-- `maxC = np.percentile(C, 99, axis=1).reshape((3,1)); maxC[2] = 1`:
the per-channel 99th percentile with the residual channel forced
to 1. -/
noncomputable def maxCvec (C : List Pix) : Fin 3 → ℝ :=
  fun a => if a = 2 then 1 else percentile (C.map fun col => col a) 99

/-- `C = C * maxC_target / maxC` (elementwise, broadcast per row). -/
noncomputable def rescaleC (C : List Pix) (maxCt maxC : Fin 3 → ℝ) : List Pix :=
  C.map fun col a => col a * maxCt a / maxC a

/-- `np.clip(x, 0, 255)` followed by the `uint8` cast (truncation,
which on the clipped range `[0, 255]` is the floor). -/
noncomputable def toUint8 (x : ℝ) : ℕ := (⌊min 255 (max 0 x)⌋).toNat

/-- `Inorm = Io * np.exp(-np.dot(HE_target, C))`, per pixel column. -/
noncomputable def reconstruct (Io : ℝ) (HEt : Mat3) (C : List Pix) : List Pix :=
  C.map fun col k => Io * Real.exp (-(∑ j, HEt k j * col j))

/-- `normalize_Macenko(patch, targetImg, Io, beta, alpha,
intensity_norm)` (source lines 15–108): zero replacement and float
cast of both inputs, stain-basis estimation for source and target,
linear unmixing of the source OD, optional dynamic-range matching
against the target, reconstruction with the target basis, reshape to
`(h, w, c)`, clip and `uint8` cast. -/
noncomputable def normalize_Macenko {h w h2 w2 : ℕ} (eigh : Mat3 → Mat3)
    (patch : Img h w 3) (targetImg : Img h2 w2 3)
    (Io beta alpha : ℝ) (intensity_norm : Bool) : Img h w 3 :=
  let OD := odRows Io (floatRows patch)
  let HE := stainMatrix eigh beta alpha OD
  let OD_target := odRows Io (floatRows targetImg)
  let HE_target := stainMatrix eigh beta alpha OD_target
  let C := lstsq HE OD
  let C2 := if intensity_norm then
      rescaleC C (maxCvec (lstsq HE_target OD_target)) (maxCvec C)
    else C
  let Inorm := reconstruct Io HE_target C2
  fun i j k => toUint8 (Inorm.getD ((i : ℕ) * w + (j : ℕ)) (fun _ => 0) k)

/-! ## Concrete instances used as witnesses and counterexamples -/

/-- A 2×2 matrix whose first column is the zero vector. -/
noncomputable def A9 : Matrix (Fin 2) (Fin 2) ℝ := !![0, 3; 0, 4]

/-- A 1×1 image with a zero sample in channel 0. -/
def Xz : Img 1 1 3 := fun _ _ k => if k = 0 then 0 else 7

/-- A uniform white 2×2 image: no optical density exceeds any
non-negative threshold, so its Foreground Sample Set is empty. -/
def Pwhite : Img 2 2 3 := fun _ _ _ => 255

/-- A 1×1 image with 4 channels (all samples equal to 1). -/
def P4 : Img 1 1 4 := fun _ _ _ => 1

/-- Pixel value A for the self-consistency witness image. -/
def wA : Fin 3 → ℕ := ![255, 255, 1]

/-- Pixel value B for the self-consistency witness image. -/
def wB : Fin 3 → ℕ := ![255, 1, 255]

/-- A 5×1 witness image: two `wA` pixels followed by three `wB`
pixels. -/
def X5 : Img 5 1 3 := fun i _ k => if (i : ℕ) < 2 then wA k else wB k

/-- A 2×1 image and `Xswap` below are pixel permutations of each
other. -/
def Xperm : Img 2 1 3 := fun i _ k => if (i : ℕ) = 0 then 10 + k else 40 + k

def Xswap : Img 2 1 3 := fun i _ k => if (i : ℕ) = 0 then 40 + k else 10 + k

/-- Optical-density row of a `wA` pixel (all channels at 255 except
channel 2 at 1). -/
noncomputable def oA : Pix := ![0, 0, Real.log 255]

/-- Optical-density row of a `wB` pixel. -/
noncomputable def oB : Pix := ![0, Real.log 255, 0]

/-- The sign-fixed two-column projection obtained from the identity
eigenvector matrix: columns `e2` and `e1`. -/
noncomputable def V15 : Fin 3 → Fin 2 → ℝ := fun i j =>
  if j = 0 then (if i = 2 then 1 else 0) else (if i = 1 then 1 else 0)

/-- The stain matrix estimated on `X5` with the identity
eigendecomposition. -/
noncomputable def HE5 : Mat3 := Matrix.of !![0, 0, -1; 1, 0, 0; 0, 1, 0]

/-- Inverse of `HE5`. -/
noncomputable def HE5inv : Mat3 := Matrix.of !![0, 1, 0; 0, 0, 1; -1, 0, 0]

/-- Concentration column of a `wA` pixel in the `HE5` basis. -/
noncomputable def cA : Pix := ![0, Real.log 255, 0]

/-- Concentration column of a `wB` pixel in the `HE5` basis. -/
noncomputable def cB : Pix := ![Real.log 255, 0, 0]

/-! ## Bridging lemmas between the real-valued and the IEEE-flagged
forms -/

/-- On a non-zero denominator, flagged division is ordinary
division. -/
theorem pdiv_eq_some (x y : ℝ) (hy : y ≠ 0) : pdiv x y = some (x / y) := by
  simp [pdiv, hy]

/-- With at least two sample rows, `np.cov` is finite and the flagged
model agrees with the real-valued one used in the pipeline. -/
theorem covNaN_eq_some_covM (rows : List Pix) (h2 : 2 ≤ rows.length) (a b : Fin 3) :
    covNaN rows a b = some (covM rows a b) := by
  have hpos : (0 : ℕ) < rows.length := lt_of_lt_of_le (by norm_num) h2
  have hlen : ((rows.length : ℕ) : ℝ) ≠ 0 := by exact_mod_cast hpos.ne'
  have h2R : (2 : ℝ) ≤ ((rows.length : ℕ) : ℝ) := by exact_mod_cast h2
  have hlen1 : ((rows.length : ℕ) : ℝ) - 1 ≠ 0 := by intro hc; linarith
  simp [covNaN, covM, meanNaN, listMean, pdiv, hlen, hlen1]

/-- On a column of non-zero norm, the flagged `normalize_columns`
agrees with the real-valued one. -/
theorem normalize_columnsF_eq_some {m n : ℕ} (A : Matrix (Fin m) (Fin n) ℝ)
    (j : Fin n) (hj : colNorm A j ≠ 0) (i : Fin m) :
    normalize_columnsF A i j = some (normalize_columns A i j) := by
  simp [normalize_columnsF, normalize_columns, pdiv, hj]

/-! ## General-purpose lemmas -/

theorem toUint8_le (x : ℝ) : toUint8 x ≤ 255 := by
  have h1 : (⌊min 255 (max 0 x)⌋ : ℤ) ≤ 255 := by
    calc ⌊min 255 (max 0 x)⌋ ≤ ⌊(255 : ℝ)⌋ := Int.floor_le_floor (min_le_left _ _)
    _ = 255 := by norm_num
  exact Int.toNat_le.2 h1

/-! ## C5: column normalization -/

/-- C5: for every matrix with no zero column, `normalize_columns`
returns the matrix whose column `j` is the input column divided by
its own Euclidean norm, and every output column has Euclidean
norm 1. -/
theorem normalize_columns_unit_norm {m n : ℕ} (A : Matrix (Fin m) (Fin n) ℝ)
    (hA : ∀ j, ∃ i, A i j ≠ 0) (j : Fin n) :
    (∀ i, normalize_columns A i j = A i j / colNorm A j) ∧
      colNorm (normalize_columns A) j = 1 := by
  constructor
  · intro i; rfl
  · have hpos : 0 < ∑ i, (A i j) ^ 2 := by
      obtain ⟨i0, hi0⟩ := hA j
      exact Finset.sum_pos' (fun i _ => sq_nonneg _)
        ⟨i0, Finset.mem_univ _, by positivity⟩
    have hnorm : 0 < colNorm A j := Real.sqrt_pos.2 hpos
    have hsq : colNorm A j ^ 2 = ∑ i, (A i j) ^ 2 := Real.sq_sqrt hpos.le
    have : colNorm (normalize_columns A) j = Real.sqrt 1 := by
      unfold colNorm normalize_columns
      congr 1
      simp only [Matrix.of_apply, div_pow]
      rw [← Finset.sum_div, hsq]
      exact div_self hpos.ne'
    rw [this, Real.sqrt_one]

/-- Witness for C5 at the 1×1 matrix `[[3]]`. -/
theorem normalize_columns_unit_norm_witness :
    colNorm (normalize_columns !![(3 : ℝ)]) 0 = 1 :=
  (normalize_columns_unit_norm !![(3 : ℝ)]
    (fun j => ⟨0, by fin_cases j; norm_num⟩) 0).2

/-! ## C9: zero column -/

/-- C9 counterexample: on a matrix with a zero column the source's
`normalize_columns` raises nothing; numpy carries out the division
and returns a matrix whose zero column holds non-finite values
(flagged `none` here), while the other columns are normalized as
usual. -/
theorem zero_column_divided_not_error :
    normalize_columnsF A9 = Matrix.of !![none, some (3 / 5); none, some (4 / 5)] := by
  have h5 : Real.sqrt 25 = 5 := by
    rw [show (25 : ℝ) = 5 ^ 2 by norm_num, Real.sqrt_sq (by norm_num : (0:ℝ) ≤ 5)]
  have hc0 : colNorm A9 0 = 0 := by
    simp [colNorm, A9, Fin.sum_univ_two]
  have hc1 : colNorm A9 1 = 5 := by
    rw [colNorm, Fin.sum_univ_two]
    norm_num [A9, h5]
  funext i j
  fin_cases i <;> fin_cases j <;>
    simp [normalize_columnsF, pdiv, hc0, hc1] <;> norm_num [A9]

/-- C9 as amended: `normalize_columns` performs no zero-column
check — division happens regardless, so every entry of a zero input
column comes out non-finite (NaN) in the returned matrix; no error
condition exists. -/
theorem normalize_columns_zero_column_nonfinite {m n : ℕ}
    (A : Matrix (Fin m) (Fin n) ℝ) (j : Fin n) (hz : ∀ i, A i j = 0) (i : Fin m) :
    normalize_columnsF A i j = none := by
  have hzero : colNorm A j = 0 := by simp [colNorm, hz]
  simp [normalize_columnsF, pdiv, hzero]

/-- Witness for the amended C9 at the concrete matrix `A9`. -/
theorem normalize_columns_zero_column_nonfinite_witness :
    normalize_columnsF A9 0 0 = none :=
  normalize_columns_zero_column_nonfinite A9 0
    (by intro i; fin_cases i <;> simp [A9]) 0

/-! ## C7: the residual concentration channel is not rescaled -/

/-- C7: with intensity normalization enabled, both 99th-percentile
vectors have their third entry forced to 1, so the third (residual)
row of the concentration matrix is unchanged by the elementwise
rescale `C * maxC_target / maxC`. -/
theorem rescale_preserves_residual_channel (C Ct : List Pix) :
    (rescaleC C (maxCvec Ct) (maxCvec C)).map (fun col => col 2) =
      C.map fun col => col 2 := by
  simp only [rescaleC, List.map_map]
  congr 1
  funext col
  simp [Function.comp, maxCvec]

/-! ## C2: caller buffers are mutated in place -/

/-- C2 counterexample: the zero-replacement step writes into the
caller's arrays (`patch[mask] = 1` before any copy is made), so a
buffer containing a zero sample is changed by the call. -/
theorem zero_pixel_buffer_mutated : (buffersAfterCall Xz Xz).1 ≠ Xz := by
  decide

/-- C2 as amended: the call mutates the caller-supplied buffers in
place — after the call each buffer holds the original samples with
every 0 replaced by 1.  The buffers are unchanged precisely when
neither input contained a zero sample. -/
theorem buffers_unchanged_iff_no_zero {h w h2 w2 c : ℕ}
    (patch : Img h w c) (targetImg : Img h2 w2 c) :
    buffersAfterCall patch targetImg = (patch, targetImg) ↔
      ((∀ i j k, patch i j k ≠ 0) ∧ (∀ i j k, targetImg i j k ≠ 0)) := by
  rw [buffersAfterCall, Prod.mk.injEq]
  constructor
  · rintro ⟨h1, h2⟩
    constructor
    · intro i j k hzero
      have := congrFun (congrFun (congrFun h1 i) j) k
      rw [bufferAfter] at this
      simp [zeroReplace, hzero] at this
    · intro i j k hzero
      have := congrFun (congrFun (congrFun h2 i) j) k
      rw [bufferAfter] at this
      simp [zeroReplace, hzero] at this
  · rintro ⟨h1, h2⟩
    constructor
    · funext i j k
      simp [bufferAfter, zeroReplace, h1 i j k]
    · funext i j k
      simp [bufferAfter, zeroReplace, h2 i j k]

/-! ## C1: degenerate Foreground Sample Set -/

/-- C1 as amended: the source contains no degeneracy check.  When the
Foreground Sample Set has fewer than 2 samples, every entry of the
`np.cov` result is a division by zero, i.e. the covariance matrix is
entirely non-finite (NaN-filled, flagged `none`), and it is handed on
to the eigendecomposition; no `DegenerateStainEstimation` error is
raised anywhere. -/
theorem cov_nan_of_degenerate_foreground (rows : List Pix) (hrows : rows.length < 2) :
    covNaN rows = fun _ _ => none := by
  funext a b
  rcases rows with _ | ⟨r, _ | ⟨r2, rest⟩⟩
  · simp [covNaN, meanNaN, pdiv]
  · norm_num [covNaN, meanNaN, pdiv]
  · simp at hrows
    omega

/-- Witness for the amended C1 at the empty sample list. -/
theorem cov_nan_of_degenerate_foreground_witness :
    covNaN [] = fun _ _ => none :=
  cov_nan_of_degenerate_foreground [] (by simp)

/-! ## C3: no channel-count guard -/

theorem one_lt_log_255 : 1 < Real.log 255 := by
  rw [Real.lt_log_iff_exp_lt (by norm_num : (0:ℝ) < 255)]
  exact lt_trans Real.exp_one_lt_d9 (by norm_num)

/-- C3 counterexample: a 4-channel image is not rejected — the
zero-replacement, float cast, optical-density computation and
foreground selection all execute on it and produce an (here:
one-element) Foreground Sample Set.  Numeric computation is well
under way with no `InvalidImageShape` error; the eventual failure in
numpy happens much later, inside `np.cross`, as a generic dimension
error. -/
theorem four_channel_image_enters_numeric_stage :
    (fgRows 0.15 (odRows 255 (floatRows P4))).length = 1 := by
  have hb : bufferAfter P4 = P4 := by decide
  have hf : flatten P4 = [fun _ => 1] := by decide
  have hrows : floatRows P4 = [fun _ => (1 : ℝ)] := by
    rw [floatRows, hb, hf]
    simp
  have hod : odRows 255 (floatRows P4) = [fun _ => Real.log 255] := by
    rw [hrows, odRows]
    simp only [List.map_cons, List.map_nil]
    congr 1
    funext k
    rw [one_div, Real.log_inv]
    ring
  rw [hod, fgRows]
  have hlt : (0.15 : ℝ) < Real.log 255 := lt_trans (by norm_num) one_lt_log_255
  simp [List.filter, hlt]

/-- C3 as amended: `normalize_Macenko` performs no channel-count
validation.  For an image with any number of channels `c` the
numeric front of the pipeline runs unguarded: the optical-density
stage produces all `h·w` samples and the foreground selection then
filters them.  (A 4-channel input only dies later inside `np.cross`
with a generic dimension error, not `InvalidImageShape` before
numeric work.) -/
theorem od_stage_runs_for_any_channel_count (c h w : ℕ) (img : Img h w c)
    (Io beta : ℝ) :
    (odRows Io (floatRows img)).length = h * w ∧
      (fgRows beta (odRows Io (floatRows img))).length ≤ h * w := by
  have h1 : (odRows Io (floatRows img)).length = h * w := by
    simp [odRows, floatRows, flatten]
  refine ⟨h1, ?_⟩
  rw [← h1]
  exact List.length_filter_le _ _

/-! ## C4: output shape and range -/

/-- C4: the returned image has the same `(h, w, 3)` shape as `patch`
(visible in the result type, which is indexed by the patch's own
dimensions) and — thanks to the final `np.clip(Inorm, 0, 255)` and
`uint8` cast — every output sample lies in `[0, 255]` (the lower
bound holds because the model of `uint8` values is `ℕ`). -/
theorem normalize_Macenko_output_shape_and_range {h w h2 w2 : ℕ}
    (eigh : Mat3 → Mat3) (patch : Img h w 3) (targetImg : Img h2 w2 3)
    (Io beta alpha : ℝ) (intensity_norm : Bool) (i : Fin h) (j : Fin w) (k : Fin 3) :
    normalize_Macenko eigh patch targetImg Io beta alpha intensity_norm i j k ≤ 255 :=
  toUint8_le _

/-! ## C8: determinism -/

/-- C8: the pipeline is a pure function with no source of
randomness — the source calls no RNG and reads no external state —
so any two invocations on equal inputs (images and parameters) return
identical images. -/
theorem normalize_Macenko_deterministic {h w h2 w2 : ℕ} (eigh : Mat3 → Mat3)
    (p1 p2 : Img h w 3) (t1 t2 : Img h2 w2 3)
    (Io1 Io2 beta1 beta2 alpha1 alpha2 : ℝ) (b1 b2 : Bool)
    (hp : p1 = p2) (ht : t1 = t2) (hIo : Io1 = Io2) (hbeta : beta1 = beta2)
    (halpha : alpha1 = alpha2) (hb : b1 = b2) :
    normalize_Macenko eigh p1 t1 Io1 beta1 alpha1 b1 =
      normalize_Macenko eigh p2 t2 Io2 beta2 alpha2 b2 := by
  subst hp; subst ht; subst hIo; subst hbeta; subst halpha; subst hb
  rfl

/-- Witness for C8 at concrete arguments. -/
theorem normalize_Macenko_deterministic_witness :
    normalize_Macenko (fun M => M) Pwhite Pwhite 255 0.15 1 true =
      normalize_Macenko (fun M => M) Pwhite Pwhite 255 0.15 1 true :=
  normalize_Macenko_deterministic (fun M => M) Pwhite Pwhite Pwhite Pwhite
    255 255 0.15 0.15 1 1 true true rfl rfl rfl rfl rfl rfl

/-- C1 counterexample: for the uniform white image every optical
density is 0, so with the default threshold `beta = 0.15` the
Foreground Sample Set is empty — and the covariance matrix the
pipeline then computes is NaN-filled (every entry non-finite), with
no `DegenerateStainEstimation` (or any other) error surfaced. -/
theorem white_image_nan_covariance_not_error :
    fgRows 0.15 (odRows 255 (floatRows Pwhite)) = [] ∧
      covNaN (fgRows 0.15 (odRows 255 (floatRows Pwhite))) = fun _ _ => none := by
  have hb : bufferAfter Pwhite = Pwhite := by decide
  have hf : flatten Pwhite =
      [fun _ => 255, fun _ => 255, fun _ => 255, fun _ => 255] := by decide
  have hrows : floatRows Pwhite =
      [fun _ => (255 : ℝ), fun _ => 255, fun _ => 255, fun _ => 255] := by
    rw [floatRows, hb, hf]
    simp
  have hone : (fun (_ : Fin 3) => -Real.log ((255 : ℝ) / 255)) = fun _ => (0 : ℝ) := by
    funext k
    norm_num [Real.log_one]
  have hod : odRows 255 (floatRows Pwhite) =
      [fun _ => (0 : ℝ), fun _ => 0, fun _ => 0, fun _ => 0] := by
    rw [hrows, odRows]
    simp only [List.map_cons, List.map_nil]
    rw [hone]
  have hfg : fgRows 0.15 (odRows 255 (floatRows Pwhite)) = [] := by
    rw [hod, fgRows]
    have hlt : ¬ ((0.15 : ℝ) < 0) := by norm_num
    simp [List.filter, hlt]
  exact ⟨hfg, by rw [hfg]; funext a b; simp [covNaN, meanNaN, pdiv]⟩

/-! ## C10: the target influences the result only through
pixel-order-invariant statistics -/

theorem listMean_perm (l l' : List ℝ) (hp : l.Perm l') : listMean l = listMean l' := by
  rw [listMean, listMean, hp.sum_eq, hp.length_eq]

theorem percentile_perm (l l' : List ℝ) (hp : l.Perm l') (q : ℝ) :
    percentile l q = percentile l' q := by
  have hsort : List.insertionSort (· ≤ ·) l = List.insertionSort (· ≤ ·) l' :=
    List.eq_of_perm_of_sorted
      ((List.perm_insertionSort _ l).trans (hp.trans (List.perm_insertionSort _ l').symm))
      (List.sorted_insertionSort _ l) (List.sorted_insertionSort _ l')
  simp only [percentile, hsort, hp.length_eq]

theorem covM_perm (rows rows' : List Pix) (hp : rows.Perm rows') :
    covM rows = covM rows' := by
  ext a b
  simp only [covM, Matrix.of_apply]
  rw [listMean_perm (rows.map fun p => p a) (rows'.map fun p => p a) (hp.map _),
    listMean_perm (rows.map fun p => p b) (rows'.map fun p => p b) (hp.map _),
    (hp.map _).sum_eq, hp.length_eq]

theorem stainMatrix_perm (eigh : Mat3 → Mat3) (beta alpha : ℝ) (od od' : List Pix)
    (hp : od.Perm od') :
    stainMatrix eigh beta alpha od = stainMatrix eigh beta alpha od' := by
  have hfg : (fgRows beta od).Perm (fgRows beta od') := hp.filter _
  simp only [stainMatrix]
  rw [covM_perm _ _ hfg]
  have hphi : (phiList (signFix (eigh (covM (fgRows beta od')))) (fgRows beta od)).Perm
      (phiList (signFix (eigh (covM (fgRows beta od')))) (fgRows beta od')) := by
    unfold phiList
    exact (hfg.map _).map _
  rw [percentile_perm _ _ hphi alpha, percentile_perm _ _ hphi (100 - alpha)]

theorem maxCvec_perm (C C' : List Pix) (hp : C.Perm C') : maxCvec C = maxCvec C' := by
  funext a
  by_cases h2 : a = 2
  · simp [maxCvec, h2]
  · simp only [maxCvec, if_neg h2]
    exact percentile_perm _ _ (hp.map _) _

theorem flatten_bufferAfter {h w c : ℕ} (img : Img h w c) :
    flatten (bufferAfter img) = (flatten img).map fun p k => zeroReplace (p k) := by
  simp only [flatten, List.map_map]
  rfl

/-- C10: permuting the target's pixels (the rows of its flattened
N×3 form) leaves the output unchanged — the target enters only
through its foreground-OD covariance, its angle percentiles and its
99th-percentile concentration vector, all of which are invariant
under reordering of samples. -/
theorem normalize_Macenko_target_perm_invariant {h w h2 w2 : ℕ} (eigh : Mat3 → Mat3)
    (patch : Img h w 3) (t1 t2 : Img h2 w2 3) (Io beta alpha : ℝ) (b : Bool)
    (hp : (flatten t1).Perm (flatten t2)) :
    normalize_Macenko eigh patch t1 Io beta alpha b =
      normalize_Macenko eigh patch t2 Io beta alpha b := by
  have hfr : (floatRows t1).Perm (floatRows t2) := by
    unfold floatRows
    rw [flatten_bufferAfter, flatten_bufferAfter]
    exact (hp.map _).map _
  have hod : (odRows Io (floatRows t1)).Perm (odRows Io (floatRows t2)) := hfr.map _
  have hHE : stainMatrix eigh beta alpha (odRows Io (floatRows t1)) =
      stainMatrix eigh beta alpha (odRows Io (floatRows t2)) :=
    stainMatrix_perm _ _ _ _ _ hod
  simp only [normalize_Macenko]
  rw [hHE,
    maxCvec_perm
      (lstsq (stainMatrix eigh beta alpha (odRows Io (floatRows t2))) (odRows Io (floatRows t1)))
      (lstsq (stainMatrix eigh beta alpha (odRows Io (floatRows t2))) (odRows Io (floatRows t2)))
      (hod.map _)]

/-- Witness for C10: a 2×1 target and its pixel-swapped version give
the same output. -/
theorem normalize_Macenko_target_perm_invariant_witness :
    normalize_Macenko (fun M => M) Pwhite Xperm 255 0.15 1 true =
      normalize_Macenko (fun M => M) Pwhite Xswap 255 0.15 1 true :=
  normalize_Macenko_target_perm_invariant (fun M => M) Pwhite Xperm Xswap
    255 0.15 1 true (by decide)

/-! ## C6: self-consistency -/

theorem zeroReplace_pos (x : ℕ) : 0 < zeroReplace x := by
  unfold zeroReplace
  split <;> omega

theorem zeroReplace_le_255 (x : ℕ) (hx : x ≤ 255) : zeroReplace x ≤ 255 := by
  unfold zeroReplace
  split <;> omega

theorem getD_map_of_lt {α β : Type} (f : α → β) (l : List α) (n : ℕ) (d : β) (d2 : α)
    (hn : n < l.length) : (l.map f).getD n d = f (l.getD n d2) := by
  rw [List.getD_eq_getElem _ d (by simpa using hn), List.getD_eq_getElem _ d2 hn,
    List.getElem_map]

theorem length_flatten {h w c : ℕ} (img : Img h w c) : (flatten img).length = h * w := by
  simp [flatten]

theorem flatten_getD {h w c : ℕ} (img : Img h w c) (i : Fin h) (j : Fin w)
    (d : Fin c → ℕ) :
    (flatten img).getD ((i : ℕ) * w + (j : ℕ)) d = fun k => img i j k := by
  have hw : 0 < w := j.pos
  have hn : (i : ℕ) * w + (j : ℕ) < h * w := by
    have h1 : (i : ℕ) * w + (j : ℕ) < ((i : ℕ) + 1) * w := by
      rw [Nat.succ_mul]
      exact Nat.add_lt_add_left j.isLt _
    have h2 : ((i : ℕ) + 1) * w ≤ h * w := Nat.mul_le_mul_right w i.isLt
    omega
  rw [List.getD_eq_getElem _ d (by simpa [length_flatten] using hn)]
  unfold flatten
  rw [List.getElem_map]
  have hdiv : ((i : ℕ) * w + (j : ℕ)) / w = (i : ℕ) := by
    rw [mul_comm, Nat.mul_add_div hw, Nat.div_eq_of_lt j.isLt, add_zero]
  have hmod : ((i : ℕ) * w + (j : ℕ)) % w = (j : ℕ) := by
    rw [mul_comm, Nat.mul_add_mod, Nat.mod_eq_of_lt j.isLt]
  funext k
  simp only [List.getElem_finRange, Fin.cast_mk, hdiv, hmod, Fin.eta]

theorem toUint8_natCast (m : ℕ) (hm : m ≤ 255) : toUint8 ((m : ℕ) : ℝ) = m := by
  unfold toUint8
  have h0 : max 0 ((m : ℕ) : ℝ) = ((m : ℕ) : ℝ) := max_eq_right (by positivity)
  have h255 : min 255 ((m : ℕ) : ℝ) = ((m : ℕ) : ℝ) := min_eq_right (by exact_mod_cast hm)
  rw [h0, h255, Int.floor_natCast, Int.toNat_natCast]

theorem sum_mulVec (M : Mat3) (v : Pix) (k : Fin 3) :
    (∑ j2, M k j2 * v j2) = M.mulVec v k := rfl

/-- C6: normalizing a valid image against itself (`patch = targetImg
= X`, `intensity_norm = true`) reproduces the input up to the
zero-to-one substitution — a change of at most 1, only at zero-valued
samples (the claim's "small tolerance"); an image without zero
samples is reproduced exactly.  Both estimated stain bases are the
same matrix and the intensity rescale ratio is 1.  Validity
hypotheses: samples are `uint8` (≤ 255), `Io > 0`, the estimated
stain basis is invertible, and the two real-stain 99th-percentile
concentrations are non-zero. -/
theorem normalize_Macenko_self_consistency {h w : ℕ} (eigh : Mat3 → Mat3)
    (X : Img h w 3) (Io beta alpha : ℝ)
    (hX : ∀ i j k, X i j k ≤ 255) (hIo : 0 < Io)
    (hdet : IsUnit (stainMatrix eigh beta alpha (odRows Io (floatRows X))).det)
    (hm0 : maxCvec (lstsq (stainMatrix eigh beta alpha (odRows Io (floatRows X)))
        (odRows Io (floatRows X))) 0 ≠ 0)
    (hm1 : maxCvec (lstsq (stainMatrix eigh beta alpha (odRows Io (floatRows X)))
        (odRows Io (floatRows X))) 1 ≠ 0)
    (i : Fin h) (j : Fin w) (k : Fin 3) :
    normalize_Macenko eigh X X Io beta alpha true i j k = zeroReplace (X i j k) := by
  have hn : (i : ℕ) * w + (j : ℕ) < h * w := by
    have h1 : (i : ℕ) * w + (j : ℕ) < ((i : ℕ) + 1) * w := by
      rw [Nat.succ_mul]
      exact Nat.add_lt_add_left j.isLt _
    have h2 : ((i : ℕ) + 1) * w ≤ h * w := Nat.mul_le_mul_right w i.isLt
    omega
  have hlen : (flatten (bufferAfter X)).length = h * w := length_flatten _
  simp only [normalize_Macenko, if_pos]
  set OD := odRows Io (floatRows X) with hOD
  set HE := stainMatrix eigh beta alpha OD with hHE
  set C := lstsq HE OD with hC
  have hC2 : rescaleC C (maxCvec C) (maxCvec C) = C := by
    unfold rescaleC
    have hmap : C.map (fun col a => col a * maxCvec C a / maxCvec C a) = C.map id := by
      apply List.map_congr_left
      intro col _
      funext a
      have hma : maxCvec C a ≠ 0 := by
        fin_cases a
        · exact hm0
        · exact hm1
        · simp [maxCvec]
      exact mul_div_cancel_right₀ (col a) hma
    rw [hmap, List.map_id]
  rw [hC2, hC, hOD]
  simp only [reconstruct, lstsq, odRows, floatRows]
  rw [getD_map_of_lt _ _ _ _ (fun _ => (0 : ℝ)) (by simpa [hlen] using hn),
    getD_map_of_lt _ _ _ _ (fun _ => (0 : ℝ)) (by simpa [hlen] using hn),
    getD_map_of_lt _ _ _ _ (fun _ => (0 : ℝ)) (by simpa [hlen] using hn),
    getD_map_of_lt _ _ _ _ (fun _ => (0 : ℕ)) (by simpa [hlen] using hn),
    flatten_getD (bufferAfter X) i j]
  simp only [bufferAfter, sum_mulVec]
  rw [Matrix.mulVec_mulVec, Matrix.mul_nonsing_inv _ hdet, Matrix.one_mulVec, neg_neg]
  have hq : (0 : ℝ) < ((zeroReplace (X i j k) : ℕ) : ℝ) / Io :=
    div_pos (by exact_mod_cast zeroReplace_pos _) hIo
  rw [Real.exp_log hq, mul_comm, div_mul_cancel₀ _ hIo.ne']
  exact toUint8_natCast _ (zeroReplace_le_255 _ (hX i j k))

theorem zero_lt_log_255 : (0 : ℝ) < Real.log 255 :=
  lt_trans one_pos one_lt_log_255

theorem length_of_sort_five (l : List ℝ) (s0 s1 s2 s3 s4 : ℝ)
    (hs : List.insertionSort (· ≤ ·) l = [s0, s1, s2, s3, s4]) : l.length = 5 := by
  have hp := (List.perm_insertionSort (· ≤ ·) l).length_eq
  rw [hs] at hp
  simpa using hp.symm

theorem percentile_25_of_five (l : List ℝ) (s0 s1 s2 s3 s4 : ℝ)
    (hs : List.insertionSort (· ≤ ·) l = [s0, s1, s2, s3, s4]) :
    percentile l 25 = s1 := by
  have hlen := length_of_sort_five l s0 s1 s2 s3 s4 hs
  have hidx : (25 : ℝ) / 100 * (((5 : ℕ) : ℝ) - 1) = 1 := by norm_num
  simp only [percentile, hs, hlen, hidx, Int.floor_one, Int.toNat_one]
  simp [List.getD]

theorem percentile_75_of_five (l : List ℝ) (s0 s1 s2 s3 s4 : ℝ)
    (hs : List.insertionSort (· ≤ ·) l = [s0, s1, s2, s3, s4]) :
    percentile l 75 = s3 := by
  have hlen := length_of_sort_five l s0 s1 s2 s3 s4 hs
  have hidx : (75 : ℝ) / 100 * (((5 : ℕ) : ℝ) - 1) = 3 := by norm_num
  have hfl : ⌊(3 : ℝ)⌋ = 3 := by
    rw [Int.floor_eq_iff]
    norm_num
  simp only [percentile, hs, hlen, hidx, hfl]
  simp [List.getD]

theorem percentile_99_of_five (l : List ℝ) (s0 s1 s2 s3 s4 : ℝ)
    (hs : List.insertionSort (· ≤ ·) l = [s0, s1, s2, s3, s4]) (heq : s4 = s3) :
    percentile l 99 = s3 := by
  have hlen := length_of_sort_five l s0 s1 s2 s3 s4 hs
  have hidx : (99 : ℝ) / 100 * (((5 : ℕ) : ℝ) - 1) = 99 / 25 := by norm_num
  have hfl : ⌊(99 : ℝ) / 25⌋ = 3 := by
    rw [Int.floor_eq_iff]
    norm_num
  simp only [percentile, hs, hlen, hidx, hfl]
  simp [List.getD, heq]

theorem insertionSort_00xxx (x : ℝ) (hx : 0 < x) :
    List.insertionSort (· ≤ ·) [0, 0, x, x, x] = [0, 0, x, x, x] := by
  have h1 : ¬ (x ≤ 0) := not_le.2 hx
  simp [List.insertionSort, List.orderedInsert, h1, hx.le]

theorem insertionSort_xx000 (x : ℝ) (hx : 0 < x) :
    List.insertionSort (· ≤ ·) [x, x, 0, 0, 0] = [0, 0, 0, x, x] := by
  have h1 : ¬ (x ≤ 0) := not_le.2 hx
  simp [List.insertionSort, List.orderedInsert, h1, hx.le]

theorem atan2_zero_pos (x : ℝ) (hx : 0 < x) : atan2 0 x = 0 := by
  have hre : (⟨x, 0⟩ : ℂ) = (x : ℂ) := rfl
  rw [atan2, hre]
  exact Complex.arg_ofReal_of_nonneg hx.le

theorem atan2_pos_zero (y : ℝ) (hy : 0 < y) : atan2 y 0 = Real.pi / 2 := by
  rw [atan2, Complex.arg_eq_pi_div_two_iff]
  exact ⟨rfl, hy⟩

theorem od_X5 : odRows 255 (floatRows X5) = [oA, oA, oB, oB, oB] := by
  have hb : bufferAfter X5 = X5 := by decide
  have hf : flatten X5 = [wA, wA, wB, wB, wB] := by decide
  have hA : (fun k => -Real.log (((wA k : ℕ) : ℝ) / 255)) = oA := by
    funext k
    fin_cases k
    · norm_num [wA, oA, Real.log_one]
    · norm_num [wA, oA, Real.log_one]
    · show -Real.log (((1 : ℕ) : ℝ) / 255) = oA 2
      rw [Nat.cast_one, one_div, Real.log_inv, neg_neg]
      simp [oA]
  have hB : (fun k => -Real.log (((wB k : ℕ) : ℝ) / 255)) = oB := by
    funext k
    fin_cases k
    · norm_num [wB, oB, Real.log_one]
    · show -Real.log (((1 : ℕ) : ℝ) / 255) = oB 1
      rw [Nat.cast_one, one_div, Real.log_inv, neg_neg]
      simp [oB]
    · norm_num [wB, oB, Real.log_one]
  rw [floatRows, hb, hf, odRows]
  simp only [List.map_cons, List.map_nil]
  rw [hA, hB]

theorem fg_X5 : fgRows 0.15 [oA, oA, oB, oB, oB] = [oA, oA, oB, oB, oB] := by
  have hA : ∃ k, (0.15 : ℝ) < oA k :=
    ⟨2, by simpa [oA] using lt_trans (by norm_num : (0.15 : ℝ) < 1) one_lt_log_255⟩
  have hB : ∃ k, (0.15 : ℝ) < oB k :=
    ⟨1, by simpa [oB] using lt_trans (by norm_num : (0.15 : ℝ) < 1) one_lt_log_255⟩
  rw [fgRows]
  simp [List.filter, hA, hB]

theorem signFix_one : signFix 1 = V15 := by
  funext i j
  fin_cases j <;> simp [signFix, V15, Matrix.one_apply]

theorem phi_X5 : phiList V15 [oA, oA, oB, oB, oB] =
    [0, 0, Real.pi / 2, Real.pi / 2, Real.pi / 2] := by
  have htA0 : (∑ i, oA i * V15 i 0) = Real.log 255 := by
    simp [oA, V15, Fin.sum_univ_three]
  have htA1 : (∑ i, oA i * V15 i 1) = 0 := by
    simp [oA, V15, Fin.sum_univ_three]
  have htB0 : (∑ i, oB i * V15 i 0) = 0 := by
    simp [oB, V15, Fin.sum_univ_three]
  have htB1 : (∑ i, oB i * V15 i 1) = Real.log 255 := by
    simp [oB, V15, Fin.sum_univ_three]
  rw [phiList]
  simp only [List.map_cons, List.map_nil]
  rw [htA0, htA1, htB0, htB1, atan2_zero_pos _ zero_lt_log_255,
    atan2_pos_zero _ zero_lt_log_255]

theorem basis_eval : basisFromAngles V15 0 (Real.pi / 2) = HE5 := by
  ext i j
  fin_cases i <;> fin_cases j <;>
    simp [basisFromAngles, normalize_columns, colNorm, colMat, cross3, V15, HE5,
      Fin.sum_univ_three, Real.cos_pi_div_two, Real.sin_pi_div_two,
      Matrix.vecHead, Matrix.vecTail]

theorem stain_X5 :
    stainMatrix (fun _ => (1 : Mat3)) 0.15 25 (odRows 255 (floatRows X5)) = HE5 := by
  rw [od_X5]
  simp only [stainMatrix]
  rw [fg_X5, signFix_one, phi_X5]
  have h75 : (100 : ℝ) - 25 = 75 := by norm_num
  rw [h75,
    percentile_25_of_five _ 0 0 (Real.pi / 2) (Real.pi / 2) (Real.pi / 2)
      (insertionSort_00xxx _ Real.pi_div_two_pos),
    percentile_75_of_five _ 0 0 (Real.pi / 2) (Real.pi / 2) (Real.pi / 2)
      (insertionSort_00xxx _ Real.pi_div_two_pos)]
  exact basis_eval

theorem HE5_mul_inv : HE5 * HE5inv = 1 := by
  ext i j
  fin_cases i <;> fin_cases j <;>
    simp [HE5, HE5inv, Matrix.mul_apply, Fin.sum_univ_three, Matrix.one_apply,
      Matrix.vecHead, Matrix.vecTail]

theorem HE5_inv_eq : HE5⁻¹ = HE5inv := Matrix.inv_eq_right_inv HE5_mul_inv

theorem HE5_det_isUnit : IsUnit HE5.det := by
  have hdet : HE5.det = -1 := by
    simp [HE5, Matrix.det_fin_three]
  rw [hdet]
  exact IsUnit.neg isUnit_one

theorem lstsq_X5 : lstsq HE5 [oA, oA, oB, oB, oB] = [cA, cA, cB, cB, cB] := by
  have hA : HE5⁻¹.mulVec oA = cA := by
    rw [HE5_inv_eq]
    funext k
    rw [← sum_mulVec]
    fin_cases k <;> simp [HE5inv, oA, cA, Fin.sum_univ_three]
  have hB : HE5⁻¹.mulVec oB = cB := by
    rw [HE5_inv_eq]
    funext k
    rw [← sum_mulVec]
    fin_cases k <;> simp [HE5inv, oB, cB, Fin.sum_univ_three]
  rw [lstsq]
  simp only [List.map_cons, List.map_nil, hA, hB]

theorem maxC0_X5 : maxCvec [cA, cA, cB, cB, cB] 0 = Real.log 255 := by
  have hmap : ([cA, cA, cB, cB, cB].map fun col => col 0) =
      [0, 0, Real.log 255, Real.log 255, Real.log 255] := by
    simp [cA, cB]
  simp only [maxCvec]
  rw [if_neg (by decide : ¬ (0 : Fin 3) = 2), hmap]
  exact percentile_99_of_five _ 0 0 _ _ _ (insertionSort_00xxx _ zero_lt_log_255) rfl

theorem maxC1_X5 : maxCvec [cA, cA, cB, cB, cB] 1 = Real.log 255 := by
  have hmap : ([cA, cA, cB, cB, cB].map fun col => col 1) =
      [Real.log 255, Real.log 255, 0, 0, 0] := by
    simp [cA, cB]
  simp only [maxCvec]
  rw [if_neg (by decide : ¬ (1 : Fin 3) = 2), hmap]
  exact percentile_99_of_five _ 0 0 0 _ _ (insertionSort_xx000 _ zero_lt_log_255) rfl

/-- Witness for C6 at the 5×1 image `X5` (no zero samples, so the
output is literally the input) with the identity
eigendecomposition. -/
theorem normalize_Macenko_self_consistency_witness :
    normalize_Macenko (fun _ => (1 : Mat3)) X5 X5 255 0.15 25 true =
      fun i j k => zeroReplace (X5 i j k) := by
  have hdet : IsUnit (stainMatrix (fun _ => (1 : Mat3)) 0.15 25
      (odRows 255 (floatRows X5))).det := by
    rw [stain_X5]
    exact HE5_det_isUnit
  have hm0 : maxCvec (lstsq (stainMatrix (fun _ => (1 : Mat3)) 0.15 25
      (odRows 255 (floatRows X5))) (odRows 255 (floatRows X5))) 0 ≠ 0 := by
    rw [stain_X5, od_X5, lstsq_X5, maxC0_X5]
    exact zero_lt_log_255.ne'
  have hm1 : maxCvec (lstsq (stainMatrix (fun _ => (1 : Mat3)) 0.15 25
      (odRows 255 (floatRows X5))) (odRows 255 (floatRows X5))) 1 ≠ 0 := by
    rw [stain_X5, od_X5, lstsq_X5, maxC1_X5]
    exact zero_lt_log_255.ne'
  funext i j k
  exact normalize_Macenko_self_consistency (fun _ => (1 : Mat3)) X5 255 0.15 25
    (by decide) (by norm_num) hdet hm0 hm1 i j k
